import Mathlib

/-!
Verification of the SSE hub (`sse.py`): a file-backed event log with a
durable sequence counter, topic-pattern filtering, replay and live tailing.

Modelling conventions (shallow embedding of the Python source):
* A log line either parses (`json.loads` succeeds and yields a dict whose
  `id` field, when present, is an integer and whose `topic` field, when
  present, is a string) and is modelled as `Line.ok r`, or fails to parse
  (malformed JSON, non-dict value, ill-typed fields) and is modelled as
  `Line.bad`.  Physically empty lines are filtered out by every reader
  (`[l for l in content.strip().split('\n') if l]`) and never written, so
  the model stores only non-empty lines.
* The sequence file is `SeqFile.val n` when it is readable and
  `int(text.strip() or '0')` succeeds, `SeqFile.bad` when it is missing,
  corrupt or unreadable.
* The log file is `LogFile.readable lines` or `LogFile.unreadable`
  (`read_text` raising).  File positions are counted in lines rather than
  bytes: the writer only appends whole lines, so every position the code
  stores (`st_size`, `f.tell()` after reading to the end, or `0` after a
  rotation reset) is a line boundary.
* The SSE wire rendering of a record (`format_sse_event`) is abstracted to
  the record it carries; the source returns the empty string (no event on
  the wire) when the record's topic is missing or empty, kept here as
  `Option`.
* `time.time()` is passed in explicitly as the `now` argument.
-/

namespace SSEHub

/-- A parsed log record (a JSON dict), as read back by `json.loads`.
`id?`/`topic?` are `none` when the key is absent (`rec.get(...)` then
supplies the default).  `data` is the serialized payload, opaque here. -/
structure Rec where
  id? : Option Int
  ts : Int
  topic? : Option String
  data : Option String
  retain : Bool
  deriving DecidableEq, Repr

/-- The effective id of a record: `rec.get('id', 0)`. -/
def Rec.idv (r : Rec) : Int := r.id?.getD 0

/-- The effective topic of a record: `rec.get('topic', '')`. -/
def Rec.topicv (r : Rec) : String := r.topic?.getD ""

/-- One non-empty physical line of the log: either it parses to a record
or it is malformed. -/
inductive Line where
  | ok (r : Rec)
  | bad
  deriving DecidableEq, Repr

/-- The sequence counter file `seq.txt`. -/
inductive SeqFile where
  | val (n : Int)
  | bad
  deriving DecidableEq, Repr

/-- The event log file `pan-events.ndjson`. -/
inductive LogFile where
  | readable (lines : List Line)
  | unreadable
  deriving DecidableEq, Repr

/-- The persistent state the handlers act on. -/
structure Store where
  seq : SeqFile
  log : LogFile
  deriving DecidableEq, Repr

/-- The records of a line list, in order (`Line.bad` lines dropped). -/
def recsOf (lines : List Line) : List Rec :=
  lines.filterMap fun l => match l with | .ok r => some r | .bad => none

/-! ## Topic matcher

`topic_matches` builds `re.escape(pattern).replace('\\*', '[^.]+')` and
tests `re.match('^' + regex + '$', topic)`.  `re.escape` escapes every
character except that each `*` of the pattern becomes the regex atom
`[^.]+` (one or more characters other than `'.'`); every other pattern
character is a literal.  `re.match` anchors at the start, and Python's `$`
matches at the end of the string or just before one trailing newline. -/

/-- One token of the compiled pattern: a literal character, or the `[^.]+`
wildcard produced from `*`. -/
inductive Tok where
  | lit (c : Char)
  | star
  deriving DecidableEq, Repr

/-- Compile a pattern string: `*` becomes the wildcard, every other
character is a literal (the `re.escape` of the source makes it literal). -/
def compile (p : List Char) : List Tok :=
  p.map fun c => if c = '*' then Tok.star else Tok.lit c

/-- Does the token list match the character list entirely?  `Tok.star`
consumes one or more characters other than `'.'` (backtracking regex
semantics: some split works). -/
def tokMatch : List Tok → List Char → Bool
  | [], [] => true
  | [], _ :: _ => false
  | .lit _ :: _, [] => false
  | .lit c :: ts, x :: xs => c == x && tokMatch ts xs
  | .star :: _, [] => false
  | .star :: ts, x :: xs =>
      x != '.' && (tokMatch ts xs || tokMatch (.star :: ts) xs)
  termination_by structural _ s => s

/-- `re.match('^R$', s)`: `R` must match from the start, and `$` accepts
the end of the string or the position just before one trailing newline. -/
def pyMatchFull (ts : List Tok) (s : List Char) : Bool :=
  tokMatch ts s || (s.getLast? = some '\n' && tokMatch ts s.dropLast)

/-- `topic_matches(topic, patterns)` from the source: empty pattern list
matches everything; a pattern that is empty or `*` matches everything;
otherwise the compiled pattern must `re.match` the topic. -/
def topic_matches (topic : String) (patterns : List String) : Bool :=
  if patterns = [] then true
  else patterns.any fun p =>
    p = "" || p = "*" || pyMatchFull (compile p.toList) topic.toList

/-! ## Sequence authority and ingest -/

/-- `get_next_id()`: read the counter, increment, persist, return; on any
failure fall back to parsing the log's last non-empty line, and return 1
when the log is empty, unreadable, or that line does not parse.  The
fallback path persists nothing. -/
def get_next_id (st : Store) : Int × Store :=
  match st.seq with
  | .val n => (n + 1, { st with seq := .val (n + 1) })
  | .bad =>
      match st.log with
      | .unreadable => (1, st)
      | .readable lines =>
          match lines.getLast? with
          | some (.ok r) => (r.idv + 1, st)
          | some .bad => (1, st)
          | none => (1, st)

/-- Result of `append_event`: the `{'ok': True, 'id': id}` /
`{'ok': False, 'error': ...}` dict. -/
inductive AppendRes where
  | ok (id : Int)
  | error
  deriving DecidableEq, Repr

/-- `append_event(topic, data, retain)`: assign an id, build the record,
append one line to the log.  When the log file cannot be appended to, the
exception handler reports failure (the id was already consumed). -/
def append_event (now : Int) (topic : String) (data : Option String)
    (retain : Bool) (st : Store) : AppendRes × Store :=
  let p := get_next_id st
  let r : Rec :=
    { id? := some p.1, ts := now, topic? := some topic
      data := data, retain := retain }
  match p.2.log with
  | .readable ls =>
      (.ok p.1, { p.2 with log := .readable (ls ++ [.ok r]) })
  | .unreadable => (.error, p.2)

/-- The request body of a POST, after `request.get_json() or {}`:
`topic?` is `none` when the key is absent or its value is null/falsy,
`some ""` when it is the empty string. -/
structure ReqBody where
  topic? : Option String
  data : Option String
  retain : Bool
  deriving DecidableEq, Repr

/-- The HTTP-level outcome of `handle_post`. -/
inductive PostResp where
  | ok (id : Int)
  | invalidPayload
  | storeError
  deriving DecidableEq, Repr

/-- `handle_post`: reject a missing or empty topic before touching the
store (`if not data.get('topic')`), otherwise run `append_event`. -/
def handle_post (now : Int) (body : ReqBody) (st : Store) :
    PostResp × Store :=
  match body.topic? with
  | none => (.invalidPayload, st)
  | some t =>
      if t = "" then (.invalidPayload, st)
      else
        let p := append_event now t body.data body.retain st
        match p.1 with
        | .ok i => (.ok i, p.2)
        | .error => (.storeError, p.2)

/-! ## Reading the log -/

/-- `read_events(last_id, patterns)`: read the whole log, skip lines that
do not parse, skip records with `rec.get('id', 0) <= last_id` when
`last_id` is not None, skip records whose topic does not match
`patterns or []`; any failure of the whole read returns `[]`. -/
def read_events (last_id : Option Int) (patterns : Option (List String))
    (log : LogFile) : List Rec :=
  match log with
  | .unreadable => []
  | .readable lines =>
      lines.filterMap fun l =>
        match l with
        | .bad => none
        | .ok r =>
            match last_id with
            | some n =>
                if r.idv ≤ n then none
                else if topic_matches r.topicv (patterns.getD []) then some r
                else none
            | none =>
                if topic_matches r.topicv (patterns.getD []) then some r
                else none

/-- `format_sse_event`: renders a record as an SSE frame, or the empty
string (no event on the wire) when the topic is missing or empty.  The
text rendering is abstracted to the record it carries. -/
def format_sse_event (r : Rec) : Option Rec :=
  if r.topicv = "" then none else some r

/-! ## The SSE stream session (`generate`)

The generator first replays `read_events(last_id, patterns)`, then tails
the file: it remembers `last_pos = LOG_FILE.stat().st_size` (taken after
the replay read, so the log may have grown in between) and each loop
iteration observes the current size, resets `last_pos` to `0` when the
size shrank (rotation), reads and emits everything between `last_pos` and
the end when the size grew, and otherwise emits a keepalive comment.  One
iteration is modelled against one snapshot of the log's line list; the
emitted events of a session are the replay emissions followed by the tail
emissions over the sequence of snapshots the loop observes. -/

/-- The events the tail loop emits from a freshly read chunk of lines:
unparseable lines are skipped, records are filtered by `topic_matches`,
and `format_sse_event` drops topicless records from the wire. -/
def emitRecs (pats : List String) (lines : List Line) : List Rec :=
  lines.filterMap fun l =>
    match l with
    | .bad => none
    | .ok r =>
        if topic_matches r.topicv pats then format_sse_event r else none

/-- One iteration of the tail loop against the snapshot `log`: returns
the new `last_pos` and the events emitted in this iteration (empty for a
keepalive iteration). -/
def pollStep (pats : List String) (log : List Line) (pos : Nat) :
    Nat × List Rec :=
  let size := log.length
  let pos := if size < pos then 0 else pos
  if size > pos then (size, emitRecs pats (log.drop pos))
  else (pos, [])

/-- The tail loop run over a finite sequence of log snapshots (the
5-minute deadline bounds the number of iterations). -/
def tailRun (pats : List String) : List (List Line) → Nat → List Rec
  | [], _ => []
  | log :: rest, pos =>
      (pollStep pats log pos).2 ++ tailRun pats rest (pollStep pats log pos).1

/-- The events one session emits: the replay of `read_events`, rendered
through `format_sse_event`, followed by the tail phase started at the size
of the `tailInit` snapshot (the `stat` taken after the replay read). -/
def generate (last_id : Option Int) (pats : List String)
    (replayLog : LogFile) (tailInit : List Line)
    (snaps : List (List Line)) : List Rec :=
  (read_events last_id (some pats) replayLog).filterMap format_sse_event
    ++ tailRun pats snaps tailInit.length

/-! ## Ingest sequences -/

/-- The fresh store: counter file containing `0`, empty log. -/
def fresh : Store := { seq := .val 0, log := .readable [] }

/-- Run a sequence of POST requests (each with its wall-clock time),
collecting the responses and threading the store. -/
def runIngests : List (Int × ReqBody) → Store → List PostResp × Store
  | [], st => ([], st)
  | (now, b) :: rest, st =>
      let p := handle_post now b st
      let q := runIngests rest p.2
      (p.1 :: q.1, q.2)

/-- The record a valid POST body appends when the counter held `k`. -/
def postRec (k now : Int) (b : ReqBody) : Rec :=
  { id? := some (k + 1), ts := now, topic? := b.topic?
    data := b.data, retain := b.retain }

/-- The log lines a run of valid ingest calls appends, starting from
counter value `k`. -/
def ingestRecs (k : Int) : List (Int × ReqBody) → List Line
  | [] => []
  | (now, b) :: rest => .ok (postRec k now b) :: ingestRecs (k + 1) rest

/-- A POST body that passes validation: `topic` present and non-empty. -/
def ValidBody (b : ReqBody) : Prop := ∃ t, b.topic? = some t ∧ t ≠ ""

/-- A line list whose records have strictly increasing effective ids (the
shape every ingest-produced log has). -/
def goodLog (lines : List Line) : Prop :=
  (recsOf lines).Pairwise fun a b => a.idv < b.idv

/-! ## Spec-side definitions

These follow the specification's words, to be compared with the
definitions above (refinement checks). -/

/-- The specification's matching relation for one compiled pattern against
a topic: literals match themselves, the wildcard consumes one or more
characters other than `'.'`, and the whole topic must be consumed
(anchored on both ends). -/
inductive RMatch : List Tok → List Char → Prop
  | nil : RMatch [] []
  | lit {c ts s} : RMatch ts s → RMatch (.lit c :: ts) (c :: s)
  | star {a ts s} : a ≠ [] → (∀ c ∈ a, c ≠ '.') → RMatch ts s →
      RMatch (.star :: ts) (a ++ s)

/-- `topic_matches` as the specification words it: match-all on an empty
pattern set or a pattern that is empty or `*`; otherwise some pattern must
match the entire topic, anchored on both ends. -/
def specTopicMatches (topic : String) (patterns : List String) : Prop :=
  patterns = [] ∨ ∃ p ∈ patterns,
    p = "" ∨ p = "*" ∨ RMatch (compile p.toList) topic.toList

/-- The id of the log's most recent parseable record, as the
specification's counter-recovery rule reads it. -/
def lastParseableId (lines : List Line) : Option Int :=
  (recsOf lines).getLast?.map Rec.idv

/-! ## Lemmas: topic matcher -/

theorem tokMatch_sound : ∀ (s : List Char) (ts : List Tok),
    tokMatch ts s = true → RMatch ts s
  | [], [], _ => RMatch.nil
  | [], .lit _ :: _, h => by simp [tokMatch] at h
  | [], .star :: _, h => by simp [tokMatch] at h
  | _ :: _, [], h => by simp [tokMatch] at h
  | x :: xs, .lit c :: ts, h => by
      rw [tokMatch, Bool.and_eq_true, beq_iff_eq] at h
      obtain ⟨rfl, h2⟩ := h
      exact RMatch.lit (tokMatch_sound xs ts h2)
  | x :: xs, .star :: ts, h => by
      rw [tokMatch, Bool.and_eq_true, Bool.or_eq_true, bne_iff_ne] at h
      obtain ⟨hx, h2 | h2⟩ := h
      · have hm : RMatch (.star :: ts) ([x] ++ xs) :=
          RMatch.star (by simp) (by simpa using hx) (tokMatch_sound xs ts h2)
        simpa using hm
      · have hrec := tokMatch_sound xs (.star :: ts) h2
        cases hrec with
        | star ha hd hm =>
            rename_i a s'
            have : RMatch (.star :: ts) ((x :: a) ++ s') :=
              RMatch.star (by simp)
                (by
                  intro c hc
                  rcases List.mem_cons.mp hc with rfl | hc
                  · exact hx
                  · exact hd c hc) hm
            simpa using this

theorem tokMatch_star_append (ts : List Tok) :
    ∀ (a s : List Char), a ≠ [] → (∀ c ∈ a, c ≠ '.') →
      tokMatch ts s = true → tokMatch (.star :: ts) (a ++ s) = true
  | [], _, ha, _, _ => absurd rfl ha
  | [x], s, _, hd, hm => by
      rw [List.singleton_append, tokMatch, Bool.and_eq_true, Bool.or_eq_true,
        bne_iff_ne]
      exact ⟨hd x (by simp), Or.inl hm⟩
  | x :: y :: a, s, _, hd, hm => by
      have ih := tokMatch_star_append ts (y :: a) s (by simp)
        (fun c hc => hd c (List.mem_cons_of_mem x hc)) hm
      rw [List.cons_append, tokMatch, Bool.and_eq_true, Bool.or_eq_true,
        bne_iff_ne]
      exact ⟨hd x (by simp), Or.inr (by simpa using ih)⟩

theorem tokMatch_complete {ts : List Tok} {s : List Char}
    (h : RMatch ts s) : tokMatch ts s = true := by
  induction h with
  | nil => rfl
  | lit _ ih => rw [tokMatch, Bool.and_eq_true, beq_iff_eq]; exact ⟨rfl, ih⟩
  | star ha hd _ ih => exact tokMatch_star_append _ _ _ ha hd ih

/-- The executable matcher agrees with the specification's matching
relation: the compiled pattern accepts exactly the strings it should. -/
theorem tokMatch_iff (ts : List Tok) (s : List Char) :
    tokMatch ts s = true ↔ RMatch ts s :=
  ⟨tokMatch_sound s ts, tokMatch_complete⟩

/-- `re.match('^R$', s)` in terms of the matching relation: an entire
match, or an entire match of the string without its one trailing
newline (Python's `$`). -/
theorem pyMatchFull_iff (ts : List Tok) (s : List Char) :
    pyMatchFull ts s = true ↔
      RMatch ts s ∨ (s.getLast? = some '\n' ∧ RMatch ts s.dropLast) := by
  simp [pyMatchFull, tokMatch_iff]

/-- `topic_matches` characterized: match-all on the empty pattern list or
a pattern equal to `""` or `"*"`; otherwise some pattern must match the
topic entirely, or match the topic stripped of one trailing newline. -/
theorem topic_matches_iff (topic : String) (patterns : List String) :
    topic_matches topic patterns = true ↔
      (patterns = [] ∨ ∃ p ∈ patterns, p = "" ∨ p = "*" ∨
        RMatch (compile p.toList) topic.toList ∨
        (topic.toList.getLast? = some '\n' ∧
          RMatch (compile p.toList) topic.toList.dropLast)) := by
  unfold topic_matches
  by_cases hp : patterns = []
  · simp [hp]
  · simp only [if_neg hp, List.any_eq_true, Bool.or_eq_true, decide_eq_true_iff,
      beq_iff_eq, pyMatchFull_iff]
    constructor
    · rintro ⟨p, hmem, h⟩
      exact Or.inr ⟨p, hmem, by tauto⟩
    · rintro (h | ⟨p, hmem, h⟩)
      · exact absurd h hp
      · exact ⟨p, hmem, by tauto⟩

/-! ## Lemmas: reading the log -/

/-- `read_events` with a resume id keeps, in stored order, exactly the
parseable records with a larger effective id and a matching topic. -/
theorem read_events_some_eq (n : Int) (ps : Option (List String)) :
    ∀ lines : List Line,
      read_events (some n) ps (.readable lines) =
        (recsOf lines).filter fun r =>
          decide (n < r.idv) && topic_matches r.topicv (ps.getD [])
  | [] => rfl
  | .bad :: rest => by
      simpa [read_events, recsOf] using read_events_some_eq n ps rest
  | .ok r :: rest => by
      have ih := read_events_some_eq n ps rest
      simp only [read_events, recsOf, List.filterMap_cons, List.filter_cons] at ih ⊢
      by_cases h1 : r.idv ≤ n
      · simp [h1, Int.not_lt.mpr h1, ih]
      · have h1' : n < r.idv := Int.not_le.mp h1
        by_cases h2 : topic_matches r.topicv (ps.getD [])
        · simp [if_neg h1, h2, h1', ih]
        · simp [if_neg h1, h2, h1', ih]

/-- `read_events` with no resume id keeps, in stored order, exactly the
parseable records with a matching topic: no id filter at all. -/
theorem read_events_none_eq (ps : Option (List String)) :
    ∀ lines : List Line,
      read_events none ps (.readable lines) =
        (recsOf lines).filter fun r => topic_matches r.topicv (ps.getD [])
  | [] => rfl
  | .bad :: rest => by
      simpa [read_events, recsOf] using read_events_none_eq ps rest
  | .ok r :: rest => by
      have ih := read_events_none_eq ps rest
      simp only [read_events, recsOf, List.filterMap_cons, List.filter_cons] at ih ⊢
      by_cases h2 : topic_matches r.topicv (ps.getD [])
      · simp [h2, ih]
      · simp [h2, ih]

/-- Discarding the malformed lines leaves the same records. -/
theorem recsOf_filter_bad :
    ∀ lines : List Line,
      recsOf (lines.filter fun l => l != Line.bad) = recsOf lines
  | [] => rfl
  | .bad :: rest => by
      simpa [recsOf, List.filter_cons] using recsOf_filter_bad rest
  | .ok r :: rest => by
      simpa [recsOf, List.filter_cons] using recsOf_filter_bad rest

/-- Malformed lines are invisible to `read_events`. -/
theorem read_events_filter_bad (last : Option Int) (ps : Option (List String))
    (lines : List Line) :
    read_events last ps (.readable lines) =
      read_events last ps (.readable (lines.filter fun l => l != Line.bad)) := by
  cases last with
  | none => rw [read_events_none_eq, read_events_none_eq, recsOf_filter_bad]
  | some n => rw [read_events_some_eq, read_events_some_eq, recsOf_filter_bad]

/-! ## Lemmas: ingest runs -/

/-- A valid POST appends exactly one record and advances the counter. -/
theorem handle_post_valid (now : Int) (b : ReqBody) (t : String)
    (hb : b.topic? = some t) (ht : t ≠ "") (k : Int) (ls : List Line) :
    handle_post now b { seq := .val k, log := .readable ls } =
      (.ok (k + 1),
       { seq := .val (k + 1),
         log := .readable (ls ++ [.ok (postRec k now b)]) }) := by
  simp [handle_post, hb, ht, append_event, get_next_id, postRec]

/-- The id sequence `k+1, k+2, ..., k+n`. -/
def idList (k : Int) (n : Nat) : List Int :=
  (List.range n).map fun i : Nat => k + 1 + (i : Int)

theorem idList_succ (k : Int) (n : Nat) :
    idList k (n + 1) = (k + 1) :: idList (k + 1) n := by
  unfold idList
  rw [List.range_succ_eq_map, List.map_cons, List.map_map]
  refine congrArg₂ _ (by simp) (List.map_congr_left fun i _ => ?_)
  show k + 1 + ((i : Int) + 1) = k + 1 + 1 + (i : Int)
  ring

theorem idList_pairwise (k : Int) (n : Nat) :
    (idList k n).Pairwise (· < ·) := by
  unfold idList
  refine (List.pairwise_lt_range n).map _ fun a b hab => ?_
  show k + 1 + (a : Int) < k + 1 + (b : Int)
  omega

/-- A run of valid ingest calls from counter `k` assigns the ids
`k+1, k+2, ...` in order and appends exactly the corresponding records. -/
theorem runIngests_valid :
    ∀ (calls : List (Int × ReqBody)) (k : Int) (ls : List Line),
      (∀ c ∈ calls, ValidBody c.2) →
      runIngests calls { seq := .val k, log := .readable ls } =
        ((idList k calls.length).map PostResp.ok,
         { seq := .val (k + calls.length),
           log := .readable (ls ++ ingestRecs k calls) })
  | [], k, ls, _ => by simp [runIngests, ingestRecs, idList]
  | (now, b) :: rest, k, ls, hv => by
      obtain ⟨t, hb, ht⟩ := hv (now, b) (List.mem_cons_self _ _)
      have hrest : ∀ c ∈ rest, ValidBody c.2 :=
        fun c hc => hv c (List.mem_cons_of_mem _ hc)
      have ih := runIngests_valid rest (k + 1) (ls ++ [.ok (postRec k now b)]) hrest
      simp only [runIngests, handle_post_valid now b t hb ht k ls, ih, ingestRecs,
        List.length_cons, idList_succ, List.map_cons, Prod.mk.injEq]
      refine ⟨trivial, ?_⟩
      rw [Store.mk.injEq]
      refine ⟨?_, ?_⟩
      · congr 1
        push_cast
        ring
      · rw [List.append_assoc]
        rfl

/-- The effective ids of an ingest run's records are `k+1, ..., k+N`. -/
theorem ingestRecs_ids :
    ∀ (calls : List (Int × ReqBody)) (k : Int),
      (recsOf (ingestRecs k calls)).map Rec.idv = idList k calls.length
  | [], _ => rfl
  | (now, b) :: rest, k => by
      have ih := ingestRecs_ids rest (k + 1)
      simp only [ingestRecs, recsOf, List.filterMap_cons, List.length_cons,
        List.map_cons, idList_succ]
      rw [← ih]
      rfl

/-- Every ingest-produced log has strictly increasing record ids. -/
theorem goodLog_ingestRecs (calls : List (Int × ReqBody)) (k : Int) :
    goodLog (ingestRecs k calls) := by
  unfold goodLog
  rw [← List.pairwise_map (f := Rec.idv), ingestRecs_ids]
  exact idList_pairwise k calls.length

/-! ## Lemmas: tail phase -/

/-- A poll iteration whose cursor is still inside the log reads exactly
the suffix beyond the cursor and leaves the cursor at the end. -/
theorem pollStep_no_rotation (pats : List String) (log : List Line)
    (pos : Nat) (h : pos ≤ log.length) :
    pollStep pats log pos = (log.length, emitRecs pats (log.drop pos)) := by
  unfold pollStep
  simp only [if_neg (Nat.not_lt.mpr h)]
  rcases eq_or_lt_of_le h with heq | hlt
  · subst heq
    simp [emitRecs, List.drop_length]
  · simp [hlt]

/-- Along a chain of append-only snapshots, the first list is a prefix of
the last. -/
theorem chain_getLastD {base : List Line} :
    ∀ {snaps : List (List Line)},
      List.Chain (· <+: ·) base snaps → base <+: snaps.getLastD base
  | [], _ => ⟨[], List.append_nil base⟩
  | s :: rest, h => by
      rw [List.chain_cons] at h
      rw [List.getLastD_cons]
      exact h.1.trans (chain_getLastD h.2)

/-- Splitting the new suffix of a grown log at an intermediate snapshot. -/
theorem drop_of_grown {l f : List Line} (hp : l <+: f) {pos : Nat}
    (hpos : pos ≤ l.length) :
    f.drop pos = l.drop pos ++ f.drop l.length := by
  obtain ⟨t, rfl⟩ := hp
  rw [List.drop_append_eq_append_drop, List.drop_left,
    Nat.sub_eq_zero_of_le hpos, List.drop_zero]

theorem emitRecs_append (pats : List String) (l l' : List Line) :
    emitRecs pats (l ++ l') = emitRecs pats l ++ emitRecs pats l' :=
  List.filterMap_append l l' _

/-- A tail run over append-only snapshots, started with its cursor at
the end of the previous snapshot, emits exactly the filtered records of
everything appended up to the last snapshot, in order. -/
theorem tailRun_collapse (pats : List String) :
    ∀ (snaps : List (List Line)) (prev : List Line),
      List.Chain (· <+: ·) prev snaps →
      tailRun pats snaps prev.length =
        emitRecs pats ((snaps.getLastD prev).drop prev.length)
  | [], prev, _ => by simp [tailRun, List.drop_length, emitRecs]
  | log :: rest, prev, h => by
      rw [List.chain_cons] at h
      obtain ⟨h1, h2⟩ := h
      have hlen : prev.length ≤ log.length := h1.length_le
      have hstep := pollStep_no_rotation pats log prev.length hlen
      have ih := tailRun_collapse pats rest log h2
      have hpf : log <+: rest.getLastD log := chain_getLastD h2
      rw [List.getLastD_cons, drop_of_grown hpf hlen, emitRecs_append]
      unfold tailRun
      rw [hstep, ih]

/-- Each selection the replay emission makes is one of the log's records:
emitted lists are sublists of the stored record list. -/
theorem filterMap_subselect {f : Line → Option Rec}
    (h : ∀ l r, f l = some r → (match l with
      | Line.ok r' => some r' | Line.bad => none) = some r) :
    ∀ lines : List Line, (lines.filterMap f).Sublist (recsOf lines)
  | [] => List.Sublist.slnil
  | l :: rest => by
      have ih := filterMap_subselect h rest
      rw [recsOf, List.filterMap_cons, List.filterMap_cons]
      rcases hf : f l with _ | r
      · rcases l with r' | _
        · exact ih.cons r'
        · exact ih
      · have := h l r hf
        rcases l with r' | _
        · simp only [Option.some.injEq] at this
          subst this
          exact ih.cons₂ _
        · simp at this

/-- Rendering through `format_sse_event` only drops elements. -/
theorem filterMap_format_sublist :
    ∀ X : List Rec, (X.filterMap format_sse_event).Sublist X
  | [] => .slnil
  | r :: rest => by
      rw [List.filterMap_cons]
      unfold format_sse_event
      by_cases h : r.topicv = ""
      · simp only [if_pos h]
        exact (filterMap_format_sublist rest).cons r
      · simp only [if_neg h]
        exact (filterMap_format_sublist rest).cons₂ r

/-- The tail loop only ever emits records that are stored in the chunk it
read. -/
theorem emitRecs_sublist (pats : List String) (lines : List Line) :
    (emitRecs pats lines).Sublist (recsOf lines) := by
  refine filterMap_subselect ?_ lines
  intro l r hf
  cases l with
  | bad => simp at hf
  | ok r' =>
      have hf' : (if topic_matches r'.topicv pats then format_sse_event r'
          else none) = some r := hf
      show some r' = some r
      by_cases hm : topic_matches r'.topicv pats
      · rw [if_pos hm] at hf'
        unfold format_sse_event at hf'
        by_cases he : r'.topicv = ""
        · rw [if_pos he] at hf'
          exact absurd hf' (by simp)
        · rw [if_neg he] at hf'
          exact hf'
      · rw [if_neg hm] at hf'
        exact absurd hf' (by simp)

/-- A prefix of a list is a prefix of any long-enough `take` of it. -/
theorem take_of_grown {l f : List Line} (hp : l <+: f) {n : Nat}
    (hn : l.length ≤ n) : l <+: f.take n := by
  obtain ⟨t, rfl⟩ := hp
  rw [List.take_append_eq_append_take, List.take_of_length_le hn]
  exact ⟨t.take (n - l.length), rfl⟩

/-! ## Concrete data for witnesses and counterexamples -/

/-- A valid demo POST body. -/
def demoBody : ReqBody := { topic? := some "demo.ping", data := none, retain := false }

theorem demoBody_valid : ValidBody demoBody := ⟨"demo.ping", rfl, by decide⟩

/-- A demo record with id 1. -/
def rdemo : Rec :=
  { id? := some 1, ts := 0, topic? := some "demo.ping", data := none, retain := false }

/-- A demo record with id 2. -/
def rdemo2 : Rec :=
  { id? := some 2, ts := 0, topic? := some "demo.pong", data := none, retain := false }

/-- A record with id 5, for the counter-recovery counterexample. -/
def recId5 : Rec :=
  { id? := some 5, ts := 7, topic? := some "t", data := none, retain := false }

/-- A record whose `id` key is absent, for the no-cursor counterexample. -/
def recNoId : Rec :=
  { id? := none, ts := 0, topic? := some "t", data := none, retain := false }

/-- A store whose counter is unreadable and whose log ends in a
malformed line after a parseable record. -/
def badStore5 : Store := { seq := .bad, log := .readable [.ok recId5, .bad] }

/-- A store whose counter is unreadable and whose log's last line is the
parseable record `recId5`. -/
def badStoreOk : Store := { seq := .bad, log := .readable [.ok recId5] }

def calls3 : List (Int × ReqBody) := [(0, demoBody), (1, demoBody), (2, demoBody)]

def calls5 : List (Int × ReqBody) :=
  [(0, demoBody), (1, demoBody), (2, demoBody), (3, demoBody), (4, demoBody)]

/-! ## Claims -/

/-- Claim C1: starting from a fresh store (counter file holding 0, empty log),
every sequence of N successful ingest calls is assigned the ids
1, 2, ..., N, in order — returned by `append_event` through `handle_post`
and written to the log — strictly increasing with no duplicates. -/
theorem ingest_ids_exact (calls : List (Int × ReqBody))
    (hv : ∀ c ∈ calls, ValidBody c.2) :
    (runIngests calls fresh).1 = (idList 0 calls.length).map PostResp.ok ∧
    (runIngests calls fresh).2 =
      { seq := .val calls.length, log := .readable (ingestRecs 0 calls) } ∧
    (recsOf (ingestRecs 0 calls)).map Rec.idv = idList 0 calls.length ∧
    (idList 0 calls.length).Chain' (· < ·) ∧
    idList 0 calls.length =
      (List.range calls.length).map fun i : Nat => (i : Int) + 1 := by
  have h := runIngests_valid calls 0 [] hv
  have hfresh : fresh = { seq := .val 0, log := .readable [] } := rfl
  rw [hfresh, h]
  refine ⟨rfl, by simp, ingestRecs_ids calls 0,
    (idList_pairwise 0 calls.length).chain', ?_⟩
  unfold idList
  refine List.map_congr_left fun i _ => ?_
  show (0 : Int) + 1 + (i : Int) = (i : Int) + 1
  ring

theorem ingest_ids_exact_witness :
    (runIngests calls3 fresh).1 = (idList 0 calls3.length).map PostResp.ok :=
  (ingest_ids_exact calls3 (by
    intro c hc
    simp only [calls3, List.mem_cons, List.not_mem_nil, or_false] at hc
    rcases hc with rfl | rfl | rfl <;> exact demoBody_valid)).1

/-- Claim C2: for every log produced by a sequence of ingest calls, every
resume id and every pattern set, `read_events` returns, in ascending id
order, exactly the stored events with a larger id and a matching topic;
an empty history gives an empty, non-error result. -/
theorem replay_resume_exact (calls : List (Int × ReqBody))
    (hv : ∀ c ∈ calls, ValidBody c.2) (lines : List Line)
    (hlog : (runIngests calls fresh).2.log = .readable lines)
    (n : Int) (pats : List String) :
    read_events (some n) (some pats) (.readable lines) =
      (recsOf lines).filter
        (fun r => decide (n < r.idv) && topic_matches r.topicv pats) ∧
    ((read_events (some n) (some pats) (.readable lines)).map Rec.idv).Chain'
      (· < ·) ∧
    read_events (some n) (some pats) (.readable ([] : List Line)) = [] := by
  obtain rfl : lines = ingestRecs 0 calls := by
    have h := runIngests_valid calls 0 [] hv
    have hfresh : fresh = { seq := .val 0, log := .readable [] } := rfl
    rw [hfresh, h] at hlog
    simp only [List.nil_append, LogFile.readable.injEq] at hlog
    exact hlog.symm
  refine ⟨read_events_some_eq n (some pats) _, ?_, rfl⟩
  rw [read_events_some_eq]
  have hp := (goodLog_ingestRecs calls 0).filter
    (fun r => decide (n < r.idv) && topic_matches r.topicv ((some pats).getD []))
  exact (List.pairwise_map.mpr hp).chain'

theorem replay_resume_exact_witness :
    (read_events (some 3) (some []) (.readable (ingestRecs 0 calls5))).map
      Rec.idv = [4, 5] := by
  have h := replay_resume_exact calls5 (by
      intro c hc
      simp only [calls5, List.mem_cons, List.not_mem_nil, or_false] at hc
      rcases hc with rfl | rfl | rfl | rfl | rfl <;> exact demoBody_valid)
    (ingestRecs 0 calls5) (by decide) 3 []
  rw [h.1]
  decide

/-- Claim C4: an ingest whose topic is missing or empty fails with the
invalid-payload error and leaves the store — log and counter — exactly as
it was, on every such call. -/
theorem invalid_ingest_rejected (now : Int) (body : ReqBody) (st : Store)
    (h : body.topic? = none ∨ body.topic? = some "") :
    handle_post now body st = (.invalidPayload, st) := by
  rcases h with h | h <;> simp [handle_post, h]

theorem invalid_ingest_rejected_witness :
    handle_post 0 { topic? := some "", data := none, retain := false } fresh =
      (.invalidPayload, fresh) :=
  invalid_ingest_rejected 0 _ fresh (Or.inr rfl)

/-- Claim C5, counterexample: with the counter unreadable and a log whose last
line is malformed but whose most recent parseable record has id 5, the
code returns 1, not `5 + 1` as the claim requires. -/
theorem counter_recovery_counterexample :
    (get_next_id badStore5).1 = 1 ∧
    lastParseableId [.ok recId5, .bad] = some 5 ∧
    (get_next_id badStore5).1 ≠ 5 + 1 := by decide

/-- Claim C5, amended: when the counter is missing, corrupt, or unreadable,
`get_next_id` persists nothing and returns `id + 1` for the record on the
log's last non-empty line if that line parses; it returns 1 when the log
is empty, unreadable, or its last line fails to parse — regardless of any
earlier parseable records. -/
theorem counter_recovery_amended (st : Store) (h : st.seq = .bad) :
    (st.log = .unreadable → get_next_id st = (1, st)) ∧
    (∀ lines r, st.log = .readable lines → lines.getLast? = some (.ok r) →
      get_next_id st = (r.idv + 1, st)) ∧
    (∀ lines, st.log = .readable lines →
      (∀ r, lines.getLast? ≠ some (.ok r)) → get_next_id st = (1, st)) := by
  refine ⟨?_, ?_, ?_⟩
  · intro hl
    simp only [get_next_id, h, hl]
  · intro lines r hl hlast
    simp only [get_next_id, h, hl, hlast]
  · intro lines hl hlast
    cases hg : lines.getLast? with
    | none => simp only [get_next_id, h, hl, hg]
    | some l =>
        cases l with
        | ok r => exact absurd hg (hlast r)
        | bad => simp only [get_next_id, h, hl, hg]

theorem counter_recovery_amended_witness :
    get_next_id badStoreOk = (recId5.idv + 1, badStoreOk) :=
  (counter_recovery_amended badStoreOk rfl).2.1 [.ok recId5] recId5 rfl rfl

/-- Claim C6: an unparseable record between two valid records is skipped
without error — the replay yields exactly the two valid events — and in
general malformed lines never affect `read_events`. -/
theorem skip_malformed_lines (r1 r2 : Rec) (last : Option Int)
    (ps : Option (List String)) (lines : List Line) :
    read_events none none (.readable [.ok r1, .bad, .ok r2]) = [r1, r2] ∧
    read_events last ps (.readable lines) =
      read_events last ps (.readable (lines.filter fun l => l != Line.bad)) := by
  refine ⟨?_, read_events_filter_bad last ps lines⟩
  rw [read_events_none_eq]
  simp [recsOf, topic_matches]

/-- Claim C7, counterexample: a failed read of the whole log during replay is
returned as the successful empty list — indistinguishable from an empty
history — and the session then proceeds to tail (emitting later events)
instead of closing. -/
theorem store_error_counterexample :
    read_events none none LogFile.unreadable = ([] : List Rec) ∧
    read_events none none (LogFile.readable []) = ([] : List Rec) ∧
    generate none [] LogFile.unreadable [] [[Line.ok rdemo]] = [rdemo] := by
  decide

/-- Claim C7, amended: when the durable read of the log fails during replay,
`read_events` swallows the error and returns the empty list — the same
successful-looking result as a genuinely empty history — and the session
continues into the tail phase rather than moving to CLOSED. -/
theorem store_error_amended (last : Option Int) (ps : Option (List String)) :
    read_events last ps LogFile.unreadable = [] ∧
    read_events last ps LogFile.unreadable =
      read_events last ps (.readable []) ∧
    ∀ (pats : List String) (tailInit : List Line)
      (snaps : List (List Line)),
      generate last pats LogFile.unreadable tailInit snaps =
        tailRun pats snaps tailInit.length :=
  ⟨rfl, rfl, fun _ _ _ => rfl⟩

/-- Claim C10, counterexample: on a log holding one parseable record with no
`id` key, a replay with `last_id = None` returns the record while a
replay with `last_id = 0` filters it out, so the two are not equivalent
for every log contents. -/
theorem no_cursor_counterexample :
    read_events none (some []) (.readable [.ok recNoId]) = [recNoId] ∧
    read_events (some 0) (some []) (.readable [.ok recNoId]) = [] := by
  decide

/-- Claim C10, amended: with no resume cursor (`last_id = None`) the replay
applies no id filter and returns every stored event whose topic matches;
this coincides with `last_seen_id = 0` exactly on logs all of whose
records have positive effective ids — in particular on every
ingest-produced log. -/
theorem no_cursor_amended (ps : Option (List String)) (lines : List Line) :
    read_events none ps (.readable lines) =
      (recsOf lines).filter (fun r => topic_matches r.topicv (ps.getD [])) ∧
    ((∀ r ∈ recsOf lines, 0 < r.idv) →
      read_events none ps (.readable lines) =
        read_events (some 0) ps (.readable lines)) := by
  refine ⟨read_events_none_eq ps lines, fun hpos => ?_⟩
  rw [read_events_none_eq, read_events_some_eq]
  refine List.filter_congr ?_
  intro r hr
  simp [hpos r hr]

theorem no_cursor_amended_witness :
    read_events none (some []) (.readable [.ok rdemo]) =
      read_events (some 0) (some []) (.readable [.ok rdemo]) :=
  (no_cursor_amended (some []) [.ok rdemo]).2 (by decide)

/-- Claim C3, counterexample: the claim's "matches the entire topic anchored at
both ends" fails on the code: Python's `$` also matches just before one
trailing newline, so `topic_matches "a\n" ["a"]` is true although no
pattern matches the entire topic. -/
theorem topic_anchor_counterexample :
    topic_matches "a\n" ["a"] = true ∧ ¬ specTopicMatches "a\n" ["a"] := by
  refine ⟨by decide, ?_⟩
  rintro (h | ⟨p, hp, h⟩)
  · exact absurd h (by decide)
  · have hp' : p = "a" := List.mem_singleton.mp hp
    subst hp'
    rcases h with h | h | h
    · exact absurd h (by decide)
    · exact absurd h (by decide)
    · exact absurd (tokMatch_complete h) (by decide)

/-- Claim C3, amended: `topic_matches` is true unconditionally when the pattern
set is empty or contains `""` or `"*"`; otherwise it is true iff some
pattern — every character literal except `*`, which stands for one or
more non-`'.'` characters — matches the entire topic anchored at both
ends, or matches the topic with one trailing newline removed (Python's
`$`).  In particular `a.*` matches `a.b` and `a.x` but not `a.b.c` or
`b.a`. -/
theorem topic_match_amended (topic : String) (patterns : List String) :
    (topic_matches topic patterns = true ↔
      (patterns = [] ∨ ∃ p ∈ patterns, p = "" ∨ p = "*" ∨
        RMatch (compile p.toList) topic.toList ∨
        (topic.toList.getLast? = some '\n' ∧
          RMatch (compile p.toList) topic.toList.dropLast))) ∧
    (patterns = [] ∨ "" ∈ patterns ∨ "*" ∈ patterns →
      topic_matches topic patterns = true) ∧
    topic_matches "a.b" ["a.*"] = true ∧
    topic_matches "a.x" ["a.*"] = true ∧
    topic_matches "a.b.c" ["a.*"] = false ∧
    topic_matches "b.a" ["a.*"] = false := by
  refine ⟨topic_matches_iff topic patterns, ?_, by decide, by decide,
    by decide, by decide⟩
  intro h
  rcases h with rfl | h | h
  · simp [topic_matches]
  · rw [topic_matches_iff]
    exact Or.inr ⟨"", h, Or.inl rfl⟩
  · rw [topic_matches_iff]
    exact Or.inr ⟨"*", h, Or.inr (Or.inl rfl)⟩

theorem topic_match_amended_witness :
    topic_matches "anything.at.all" ["*"] = true :=
  (topic_match_amended "anything.at.all" ["*"]).2.1
    (Or.inr (Or.inr (List.mem_singleton.mpr rfl)))

/-- Claim C9: a poll iteration that observes the size marker smaller than its
cursor does not fail: it behaves exactly like an iteration started at the
beginning of the log, emitting the new log's matching records and moving
the cursor to its end, and content appended after the rotation is then
read and emitted on the following iteration. -/
theorem rotation_recovery (pats : List String) (log : List Line) (pos : Nat)
    (h : log.length < pos) :
    pollStep pats log pos = pollStep pats log 0 ∧
    pollStep pats log pos = (log.length, emitRecs pats log) ∧
    ∀ next : List Line, log <+: next →
      tailRun pats [log, next] pos =
        emitRecs pats log ++ emitRecs pats (next.drop log.length) := by
  have e1 : pollStep pats log pos = pollStep pats log 0 := by
    unfold pollStep
    simp only [if_pos h, if_neg (Nat.not_lt_zero log.length)]
  have e2 : pollStep pats log 0 = (log.length, emitRecs pats log) := by
    rw [pollStep_no_rotation pats log 0 (Nat.zero_le _), List.drop_zero]
  refine ⟨e1, e1.trans e2, ?_⟩
  intro next hnext
  simp only [tailRun, e1.trans e2]
  rw [pollStep_no_rotation pats next log.length hnext.length_le]
  simp

theorem rotation_recovery_witness :
    pollStep [] [Line.ok rdemo] 2 = (1, emitRecs [] [Line.ok rdemo]) :=
  (rotation_recovery [] [Line.ok rdemo] 2 (by decide)).2.1

/-- Claim C8: within one session over an append-only log whose records carry
strictly increasing ids, the emitted events have strictly increasing ids
throughout, and every replayed (historical) event precedes — and has a
smaller id than — every live-tailed event.  (`generate` emits the whole
replay list before the tail loop by construction.) -/
theorem stream_session_ordering (last : Option Int) (pats : List String)
    (rl tailInit : List Line) (snaps : List (List Line))
    (hrt : rl <+: tailInit)
    (hchain : List.Chain (· <+: ·) tailInit snaps)
    (hgood : goodLog (snaps.getLastD tailInit)) :
    ((generate last pats (.readable rl) tailInit snaps).map Rec.idv).Chain'
      (· < ·) ∧
    ∀ a ∈ (read_events last (some pats) (.readable rl)).filterMap
        format_sse_event,
      ∀ b ∈ tailRun pats snaps tailInit.length, a.idv < b.idv := by
  have hIF : tailInit <+: snaps.getLastD tailInit := chain_getLastD hchain
  have hrF : rl <+: snaps.getLastD tailInit := hrt.trans hIF
  have hlen : rl.length ≤ tailInit.length := hrt.length_le
  have hre : ((read_events last (some pats) (.readable rl)).filterMap
      format_sse_event).Sublist (recsOf rl) := by
    cases last with
    | none =>
        rw [read_events_none_eq]
        exact (filterMap_format_sublist _).trans (List.filter_sublist _)
    | some n =>
        rw [read_events_some_eq]
        exact (filterMap_format_sublist _).trans (List.filter_sublist _)
  have htc := tailRun_collapse pats snaps tailInit hchain
  have hte : (tailRun pats snaps tailInit.length).Sublist
      (recsOf ((snaps.getLastD tailInit).drop tailInit.length)) := by
    rw [htc]
    exact emitRecs_sublist pats _
  have hrtake : rl <+: (snaps.getLastD tailInit).take tailInit.length :=
    take_of_grown hrF hlen
  have hre2 : ((read_events last (some pats) (.readable rl)).filterMap
      format_sse_event).Sublist
      (recsOf ((snaps.getLastD tailInit).take tailInit.length)) :=
    hre.trans (List.Sublist.filterMap _ hrtake.sublist)
  have hsplit : recsOf (snaps.getLastD tailInit) =
      recsOf ((snaps.getLastD tailInit).take tailInit.length) ++
        recsOf ((snaps.getLastD tailInit).drop tailInit.length) := by
    unfold recsOf
    rw [← List.filterMap_append, List.take_append_drop]
  have hg := hgood
  unfold goodLog at hg
  rw [hsplit, List.pairwise_append] at hg
  obtain ⟨hleft, hright, hcross⟩ := hg
  have hcross' : ∀ a ∈ (read_events last (some pats)
        (.readable rl)).filterMap format_sse_event,
      ∀ b ∈ tailRun pats snaps tailInit.length, a.idv < b.idv :=
    fun a ha b hb => hcross a (hre2.subset ha) b (hte.subset hb)
  refine ⟨?_, hcross'⟩
  have hall : (generate last pats (.readable rl) tailInit snaps).Pairwise
      (fun a b => a.idv < b.idv) := by
    unfold generate
    rw [List.pairwise_append]
    exact ⟨hleft.sublist hre2, hright.sublist hte, hcross'⟩
  exact (List.pairwise_map.mpr hall).chain'

theorem stream_session_ordering_witness :
    ((generate none [] (.readable []) [Line.ok rdemo]
      [[Line.ok rdemo, Line.ok rdemo2]]).map Rec.idv).Chain' (· < ·) :=
  (stream_session_ordering none [] [] [Line.ok rdemo]
    [[Line.ok rdemo, Line.ok rdemo2]] ⟨[Line.ok rdemo], rfl⟩
    (List.Chain.cons ⟨[Line.ok rdemo2], rfl⟩ List.Chain.nil)
    (by unfold goodLog; decide)).1

end SSEHub
